import Mathlib

/-!
Shallow embedding of `kafka/protocol/types.py`.

Byte strings are modelled as `List Nat` (each entry the value of one byte,
`0 ≤ b < 256` for bytes produced by the encoders).  An `io.BytesIO` read
cursor is modelled by the list of bytes remaining after the current
position: `read(n)` returns up to `n` bytes together with the rest of the
list.  Python exceptions are modelled with `Except PErr`.  Python's
unbounded integers are modelled by `Nat`/`Int`; Python's bitwise operators
on possibly negative integers are given by explicit two's-complement
definitions (`pyAnd`, `pyOr`, `pyXor`) and Python's floor shifts by
multiplication/Euclidean division by powers of two.
-/

namespace KafkaTypes

/-- Errors raised by the Python code: `raise Exception(value)` in
`VarInt.read_unsigned_varint` (varint overflow), `struct.error` from
`struct.pack`/`struct.unpack` (re-raised as `ValueError` by the `_pack` /
`_unpack` helpers), `ValueError('Buffer underrun ...')` in
`String.decode` / `Bytes.decode`, `AssertionError` from the `assert` in
`TaggedField.decode`, and `TypeError` from evaluating `bytes + None` in
`TaggedField.encode`. -/
inductive PErr where
  | overflow (value : Nat)
  | structError
  | bufferUnderrun
  | assertionError
  | typeError
deriving Repr, DecidableEq

/-- Python `buffer.read(n)` on a `BytesIO` cursor holding `l`: returns up to
`n` bytes and the remaining buffer. -/
def readN (n : Nat) (l : List Nat) : List Nat × List Nat := (l.take n, l.drop n)

/-- Models the idiom `b = buffer.read(1); b = b[0] if len(b) > 0 else 0`
used by `VarInt.read_unsigned_varint`: a read past end of buffer is treated
as the byte value `0`. -/
def readByte (l : List Nat) : Nat × List Nat :=
  match l with
  | [] => (0, [])
  | b :: rest => (b, rest)

/-- Bits of `m` with the bits of `n` removed (`m AND NOT n` on naturals). -/
def ldiffN (m n : Nat) : Nat := m ^^^ (m &&& n)

/-- Python bitwise `&` on arbitrary integers (two's complement):
`Int.negSucc m` represents the bitwise complement of `m`. -/
def pyAnd : Int → Int → Int
  | .ofNat m, .ofNat n => .ofNat (m &&& n)
  | .ofNat m, .negSucc n => .ofNat (ldiffN m n)
  | .negSucc m, .ofNat n => .ofNat (ldiffN n m)
  | .negSucc m, .negSucc n => .negSucc (m ||| n)

/-- Python bitwise `|` on arbitrary integers (two's complement). -/
def pyOr : Int → Int → Int
  | .ofNat m, .ofNat n => .ofNat (m ||| n)
  | .ofNat m, .negSucc n => .negSucc (ldiffN n m)
  | .negSucc m, .ofNat n => .negSucc (ldiffN m n)
  | .negSucc m, .negSucc n => .negSucc (m &&& n)

/-- Python bitwise `^` on arbitrary integers (two's complement). -/
def pyXor : Int → Int → Int
  | .ofNat m, .ofNat n => .ofNat (m ^^^ n)
  | .ofNat m, .negSucc n => .negSucc (m ^^^ n)
  | .negSucc m, .ofNat n => .negSucc (m ^^^ n)
  | .negSucc m, .negSucc n => .ofNat (m ^^^ n)

/-- Python `v << n` on arbitrary integers. -/
def pyShl (v : Int) (n : Nat) : Int := v * 2 ^ n

/-- Python `v >> n` (arithmetic shift, i.e. floor division) on arbitrary
integers; `/` on `Int` is `Int.ediv`, which is floor division for the
positive divisor `2 ^ n`. -/
def pyShr (v : Int) (n : Nat) : Int := v / 2 ^ n

namespace VarInt

/-- The `while (b & 0x80) != 0` loop of `VarInt.read_unsigned_varint`.
`value` and `i` are the accumulator and shift position, `b` the byte just
read.  Matches the source statement by statement: accumulate the 7-bit
group, advance `i` by 7, `raise Exception(value)` once `i > 28`, otherwise
read the next byte and continue; on a byte without the continuation bit,
return `value | (b << i)`. -/
def readLoop (value i b : Nat) (l : List Nat) : Except PErr (Nat × List Nat) :=
  if b &&& 0x80 ≠ 0 then
    let value' := value ||| ((b &&& 0x7f) <<< i)
    if h28 : i + 7 > 28 then .error (.overflow value')
    else
      let p := readByte l
      readLoop value' (i + 7) p.1 p.2
  else .ok (value ||| (b <<< i), l)
termination_by 29 - i
decreasing_by omega

/-- Python `VarInt.read_unsigned_varint(buffer)`. -/
def read_unsigned_varint (l : List Nat) : Except PErr (Nat × List Nat) :=
  let p := readByte l
  readLoop 0 0 p.1 p.2

/-- Models `struct.pack(">B", value)` for a natural number: a single byte,
raising `struct.error` when the value exceeds 255. -/
def packB (value : Nat) : Except PErr (List Nat) :=
  if value ≤ 255 then .ok [value] else .error .structError

/-- Python `VarInt.write_unsigned_varint(value)` restricted to non-negative
inputs (every reachable call site passes a non-negative integer; the
general-integer step-indexed semantics is `write_unsigned_varint_int`
below).  While `value & 0xffffff80` is non-zero, emit `(value & 0x7f) |
0x80` (always a valid byte, so its `struct.pack` cannot fail) and shift
`value` right by 7; finally `struct.pack(">B", value)` the remaining
value, which raises `struct.error` when it does not fit one byte. -/
def write_unsigned_varint (value : Nat) : Except PErr (List Nat) :=
  if h : value &&& 0xffffff80 ≠ 0 then
    match write_unsigned_varint (value >>> 7) with
    | .ok rest => .ok (((value &&& 0x7f) ||| 0x80) :: rest)
    | .error e => .error e
  else packB value
termination_by value
decreasing_by
  have hv : value ≠ 0 := by
    intro h0
    rw [h0] at h
    simp at h
  have : value >>> 7 = value / 2 ^ 7 := Nat.shiftRight_eq_div_pow value 7
  rw [this]
  exact Nat.div_lt_self (Nat.pos_of_ne_zero hv) (by norm_num)

/-- Models `struct.pack(">B", value)` on an arbitrary integer. -/
def packBInt (value : Int) : Except PErr (List Nat) :=
  if 0 ≤ value ∧ value ≤ 255 then .ok [value.toNat] else .error .structError

/-- Step-indexed general-integer semantics of the
`while (value & 0xffffff80) != 0` loop of `VarInt.write_unsigned_varint`,
with `acc` the bytes written so far.  `none` means the loop has not
terminated within `fuel` iterations (so `∀ fuel, ... = none` expresses
divergence). -/
def writeLoopInt : Nat → Int → List Nat → Option (Except PErr (List Nat))
  | 0, _, _ => none
  | fuel + 1, value, acc =>
    if pyAnd value 0xffffff80 ≠ 0 then
      match packBInt (pyOr (pyAnd value 0x7f) 0x80) with
      | .ok bs => writeLoopInt fuel (pyShr value 7) (acc ++ bs)
      | .error e => some (.error e)
    else
      match packBInt value with
      | .ok bs => some (.ok (acc ++ bs))
      | .error e => some (.error e)

/-- Python `VarInt.write_unsigned_varint(value)` on an arbitrary integer,
step-indexed by `fuel`. -/
def write_unsigned_varint_int (fuel : Nat) (value : Int) :
    Option (Except PErr (List Nat)) :=
  writeLoopInt fuel value []

/-- The zigzag transform `(value << 1) ^ (value >> 31)` computed by
`VarInt.write_varint` before writing an unsigned varint. -/
def zigzag (value : Int) : Int := pyXor (pyShl value 1) (pyShr value 31)

/-- Python `VarInt.write_varint(value)`.  `zigzag value` is non-negative
for every integer `value` (both xor operands have the same sign), so the
`.toNat` bridge into the non-negative writer is exact; see
`zigzag_nonneg`. -/
def write_varint (value : Int) : Except PErr (List Nat) :=
  write_unsigned_varint (zigzag value).toNat

/-- Python `VarInt.read_varint(buffer)`: unsigned varint followed by the
inverse zigzag transform `(value >> 1) ^ -(value & 1)`. -/
def read_varint (l : List Nat) : Except PErr (Int × List Nat) := do
  let (value, l') ← read_unsigned_varint l
  .ok (pyXor (Int.ofNat (value >>> 1)) (-(Int.ofNat (value &&& 1))), l')

/-- Python `VarInt.len_decoder(buffer)`:
`read_unsigned_varint(buffer) - 1`. -/
def len_decoder (l : List Nat) : Except PErr (Int × List Nat) := do
  let (v, l') ← read_unsigned_varint l
  .ok ((v : Int) - 1, l')

/-- Python `VarInt.len_encoder(value)`:
`write_unsigned_varint(value + 1)`.  Every call site passes
`value ≥ -1`, so `value + 1 ≥ 0` and the `.toNat` bridge is exact. -/
def len_encoder (value : Int) : Except PErr (List Nat) :=
  write_unsigned_varint (value + 1).toNat

end VarInt

namespace Int16T

/-- Python `Int16.encode(value)`: `struct.pack('>h', value)`, i.e. the two
big-endian bytes of the 16-bit two's-complement representation;
`struct.error` (re-raised as `ValueError` by `_pack`) when the value is
out of range. -/
def encode (value : Int) : Except PErr (List Nat) :=
  if -2 ^ 15 ≤ value ∧ value < 2 ^ 15 then
    let n := (value % 2 ^ 16).toNat
    .ok [n / 2 ^ 8 % 2 ^ 8, n % 2 ^ 8]
  else .error .structError

/-- Python `Int16.decode(data)`: `struct.unpack('>h', data.read(2))`;
`struct.error` (re-raised as `ValueError` by `_unpack`) unless exactly two
bytes could be read. -/
def decode (l : List Nat) : Except PErr (Int × List Nat) :=
  let p := readN 2 l
  match p.1 with
  | [b0, b1] =>
    let u : Nat := b0 * 2 ^ 8 + b1
    .ok (if 2 ^ 15 ≤ u then (u : Int) - 2 ^ 16 else (u : Int), p.2)
  | _ => .error .structError

end Int16T

namespace Int32T

/-- Python `Int32.encode(value)`: `struct.pack('>i', value)`, i.e. the four
big-endian bytes of the 32-bit two's-complement representation;
`struct.error` (re-raised as `ValueError` by `_pack`) when the value is
out of range. -/
def encode (value : Int) : Except PErr (List Nat) :=
  if -2 ^ 31 ≤ value ∧ value < 2 ^ 31 then
    let n := (value % 2 ^ 32).toNat
    .ok [n / 2 ^ 24 % 2 ^ 8, n / 2 ^ 16 % 2 ^ 8, n / 2 ^ 8 % 2 ^ 8, n % 2 ^ 8]
  else .error .structError

/-- Python `Int32.decode(data)`: `struct.unpack('>i', data.read(4))`;
`struct.error` (re-raised as `ValueError` by `_unpack`) unless exactly four
bytes could be read. -/
def decode (l : List Nat) : Except PErr (Int × List Nat) :=
  let p := readN 4 l
  match p.1 with
  | [b0, b1, b2, b3] =>
    let u : Nat := b0 * 2 ^ 24 + b1 * 2 ^ 16 + b2 * 2 ^ 8 + b3
    .ok (if 2 ^ 31 ≤ u then (u : Int) - 2 ^ 32 else (u : Int), p.2)
  | _ => .error .structError

end Int32T

namespace StringT

/-- Python `String(encoding).encode(value)` (class `String`, default
`utf-8`).  A text value is modelled by its encoded byte sequence, so the
`str(value).encode(self.encoding)` transcoding step is the identity;
`None` encodes as `len_encoder(-1)` (class attribute `len_encoder =
Int16.encode`), otherwise the Int16 length prefix followed by the
payload. -/
def encode (value : Option (List Nat)) : Except PErr (List Nat) :=
  match value with
  | none => Int16T.encode (-1)
  | some s => do
    let lp ← Int16T.encode s.length
    .ok (lp ++ s)

/-- Python `String(encoding).decode(data)` (class attribute `len_decoder =
Int16.decode`): a negative length yields `None`; otherwise read that many
bytes, `raise ValueError('Buffer underrun decoding string')` when fewer
were available, and return them (the `value.decode(self.encoding)`
transcoding step is the identity in this model). -/
def decode (l : List Nat) : Except PErr (Option (List Nat) × List Nat) := do
  let (length, l') ← Int16T.decode l
  if length < 0 then .ok (none, l')
  else
    let p := readN length.toNat l'
    if (p.1.length : Int) = length then .ok (some p.1, p.2)
    else .error .bufferUnderrun

end StringT

namespace Bytes

/-- Python `Bytes.encode(value)` (class attribute `len_encoder =
Int32.encode`): `None` encodes as `len_encoder(-1)`, otherwise the Int32
length prefix followed by the payload. -/
def encode (value : Option (List Nat)) : Except PErr (List Nat) :=
  match value with
  | none => Int32T.encode (-1)
  | some s => do
    let lp ← Int32T.encode s.length
    .ok (lp ++ s)

/-- Python `Bytes.decode(data)` (class attribute `len_decoder =
Int32.decode`): a negative length yields `None`; otherwise read that many
bytes, `raise ValueError('Buffer underrun decoding Bytes')` when fewer
were available. -/
def decode (l : List Nat) : Except PErr (Option (List Nat) × List Nat) := do
  let (length, l') ← Int32T.decode l
  if length < 0 then .ok (none, l')
  else
    let p := readN length.toNat l'
    if (p.1.length : Int) = length then .ok (some p.1, p.2)
    else .error .bufferUnderrun

end Bytes

namespace CompactBytes

/-- Python `CompactBytes.encode(value)`: the body of `Bytes.encode` with
the class attribute `len_encoder` rebound to `VarInt.len_encoder`. -/
def encode (value : Option (List Nat)) : Except PErr (List Nat) :=
  match value with
  | none => VarInt.len_encoder (-1)
  | some s => do
    let lp ← VarInt.len_encoder s.length
    .ok (lp ++ s)

/-- Python `CompactBytes.decode(data)`: the body of `Bytes.decode` with
the class attribute `len_decoder` rebound to `VarInt.len_decoder`. -/
def decode (l : List Nat) : Except PErr (Option (List Nat) × List Nat) := do
  let (length, l') ← VarInt.len_decoder l
  if length < 0 then .ok (none, l')
  else
    let p := readN length.toNat l'
    if (p.1.length : Int) = length then .ok (some p.1, p.2)
    else .error .bufferUnderrun

end CompactBytes

/-- A codec as used by `Schema` and `Array`: any object with `encode` and
`decode` operations (duck typing in the Python source). -/
structure Codec (α : Type) where
  encode : α → Except PErr (List Nat)
  decode : List Nat → Except PErr (α × List Nat)

/-- The `Int32` codec as a `Codec` value. -/
def int32Codec : Codec Int := ⟨Int32T.encode, Int32T.decode⟩

/-- The `String('utf-8')` codec as a `Codec` value. -/
def stringCodec : Codec (Option (List Nat)) := ⟨StringT.encode, StringT.decode⟩

/-- Python `Schema(('f1', C1), ('f2', C2))` specialised to two fields, as
built by `Array(('f1', C1), ('f2', C2))` for the element type of an array
of pairs.  `Schema.encode` concatenates the field encodings in order;
its arity check `len(item) == len(self.fields)` is satisfied by
construction for a typed pair.  `Schema.decode` decodes each field in
order and returns the tuple. -/
def schema2 {α β : Type} (C1 : Codec α) (C2 : Codec β) : Codec (α × β) where
  encode p := do
    let e1 ← C1.encode p.1
    let e2 ← C2.encode p.2
    .ok (e1 ++ e2)
  decode l := do
    let (v1, l1) ← C1.decode l
    let (v2, l2) ← C2.decode l1
    .ok ((v1, v2), l2)

/-- The concatenation `b''.join([self.array_of.encode(item) for item in
items])` from `Array.encode`. -/
def encodeItems {α : Type} (C : Codec α) : List α → Except PErr (List Nat)
  | [] => .ok []
  | x :: xs => do
    let e ← C.encode x
    let es ← encodeItems C xs
    .ok (e ++ es)

/-- The comprehension `[self.array_of.decode(data) for _ in range(length)]`
from `Array.decode`, with `n` the number of iterations. -/
def decodeItems {α : Type} (C : Codec α) : Nat → List Nat → Except PErr (List α × List Nat)
  | 0, l => .ok ([], l)
  | n + 1, l => do
    let (x, l') ← C.decode l
    let (xs, l'') ← decodeItems C n l'
    .ok (x :: xs, l'')

/-- Python `Array(C).encode(items)` with the classic class attribute
`len_encoder = Int32.encode`: `None` encodes as `len_encoder(-1)`,
otherwise the Int32 length prefix followed by each element's encoding. -/
def arrayEncode {α : Type} (C : Codec α) (items : Option (List α)) :
    Except PErr (List Nat) :=
  match items with
  | none => Int32T.encode (-1)
  | some its => do
    let lp ← Int32T.encode its.length
    let es ← encodeItems C its
    .ok (lp ++ es)

/-- Python `Array(C).decode(data)` with the classic class attribute
`len_decoder = Int32.decode`: only the exact length `-1` yields `None`;
any other length `n` runs `range(n)` decode iterations, and `range` of a
negative integer is empty, hence `length.toNat` iterations. -/
def arrayDecode {α : Type} (C : Codec α) (l : List Nat) :
    Except PErr (Option (List α) × List Nat) := do
  let (length, l') ← Int32T.decode l
  if length = -1 then .ok (none, l')
  else
    let (xs, l'') ← decodeItems C length.toNat l'
    .ok (some xs, l'')

/-- An `Array(C)` instance as a `Codec` value. -/
def arrayCodec {α : Type} (C : Codec α) : Codec (Option (List α)) :=
  ⟨arrayEncode C, arrayDecode C⟩

namespace TaggedField

/-- Python `TaggedField.decode(data)`: read an unsigned varint tag, then
`size = VarInt.len_decoder(data)`; if `size > 0` read `size - 1` bytes
(with `assert len(val) == size - 1`), else the value is `None`. -/
def decode (l : List Nat) : Except PErr ((Nat × Option (List Nat)) × List Nat) := do
  let (tag, l1) ← VarInt.read_unsigned_varint l
  let (size, l2) ← VarInt.len_decoder l1
  if 0 < size then
    let p := readN (size - 1).toNat l2
    if (p.1.length : Int) = size - 1 then .ok ((tag, some p.1), p.2)
    else .error .assertionError
  else .ok ((tag, none), l2)

/-- Python `TaggedField.encode(value)`: unpack `(tag, val)`, compute
`size = -1 if val is None else len(val)`, then evaluate
`write_unsigned_varint(tag).read() + len_encoder(size) + val`; when `val`
is `None` the final `bytes + None` concatenation raises `TypeError`. -/
def encode (value : Nat × Option (List Nat)) : Except PErr (List Nat) := do
  let tag := value.1
  let val := value.2
  let size : Int := match val with | none => -1 | some v => (v.length : Int)
  let t ← VarInt.write_unsigned_varint tag
  let lp ← VarInt.len_encoder size
  match val with
  | none => .error .typeError
  | some v => .ok (t ++ lp ++ v)

end TaggedField

/-! Specification helpers used only to state and prove theorems about the
varint functions; these are not part of the embedded source. -/

/-- The 7-bit groups of `u`, least significant first (the canonical varint
group decomposition). -/
def groups (u : Nat) : List Nat :=
  if u < 128 then [u] else u % 128 :: groups (u / 128)
termination_by u
decreasing_by exact Nat.div_lt_self (by omega) (by omega)

/-- A well-formed varint encoding with the given 7-bit groups: the
continuation bit is set on every byte except the last. -/
def wfEnc : List Nat → List Nat
  | [] => []
  | [g] => [g]
  | g :: gs => (g ||| 0x80) :: wfEnc gs

/-- The value denoted by a list of 7-bit groups, least significant
first. -/
def groupsVal : List Nat → Nat
  | [] => 0
  | g :: gs => g + 128 * groupsVal gs

/-! Bit-arithmetic helper lemmas. -/

theorem testBit_mask (j : Nat) :
    (0xffffff80 : Nat).testBit j = (decide (7 ≤ j) && decide (j < 32)) := by
  have h : (0xffffff80 : Nat) = (2 ^ 32 - 1) ^^^ (2 ^ 7 - 1) := by decide
  rw [h, Nat.testBit_xor, Nat.testBit_two_pow_sub_one, Nat.testBit_two_pow_sub_one]
  by_cases h7 : j < 7 <;> by_cases h32 : j < 32 <;>
    simp [h7, h32] <;> omega

theorem and_mask_eq {u : Nat} (h : u < 2 ^ 32) :
    u &&& 0xffffff80 = (u >>> 7) <<< 7 := by
  apply Nat.eq_of_testBit_eq
  intro j
  rw [Nat.testBit_and, testBit_mask, Nat.testBit_shiftLeft, Nat.testBit_shiftRight]
  by_cases h7 : 7 ≤ j
  · by_cases h32 : j < 32
    · have hj : 7 + (j - 7) = j := by omega
      simp [h7, h32, hj, ge_iff_le]
    · have hj : 7 + (j - 7) = j := by omega
      have hb : u.testBit j = false := by
        apply Nat.testBit_lt_two_pow
        calc u < 2 ^ 32 := h
          _ ≤ 2 ^ j := Nat.pow_le_pow_right (by norm_num) (by omega)
      simp [hb, h32, hj, h7, ge_iff_le]
  · simp [h7, ge_iff_le]

theorem and_mask_zero_iff {u : Nat} (h : u < 2 ^ 32) :
    u &&& 0xffffff80 = 0 ↔ u < 128 := by
  rw [and_mask_eq h, Nat.shiftRight_eq_div_pow, Nat.shiftLeft_eq]
  have h128 : (2 : Nat) ^ 7 = 128 := by norm_num
  rw [h128]
  omega

theorem and127_eq_mod (u : Nat) : u &&& 0x7f = u % 128 := by
  have h : (0x7f : Nat) = 2 ^ 7 - 1 := by norm_num
  rw [h, Nat.and_pow_two_sub_one_eq_mod]

theorem or_shift_add (value x i : Nat) (h : value < 2 ^ i) :
    value ||| (x <<< i) = value + x * 2 ^ i := by
  rw [Nat.shiftLeft_eq, Nat.or_comm, Nat.mul_comm x (2 ^ i),
    ← Nat.mul_add_lt_is_or h x]
  omega

theorem or128_eq_add {g : Nat} (h : g < 128) : g ||| 0x80 = g + 128 := by
  have h1 : (0x80 : Nat) = 1 <<< 7 := by decide
  rw [h1, or_shift_add g 1 7 h]
  omega

theorem cont_byte_and128 {g : Nat} (h : g < 128) : (g ||| 0x80) &&& 0x80 ≠ 0 := by
  intro h0
  have h7 : ((g ||| 0x80) &&& 0x80).testBit 7 = false := by
    rw [h0]; exact Nat.zero_testBit 7
  rw [Nat.testBit_and, Nat.testBit_or] at h7
  have h80 : (0x80 : Nat).testBit 7 = true := by
    have : (0x80 : Nat) = 2 ^ 7 := by norm_num
    rw [this]; exact Nat.testBit_two_pow_self
  simp [h80] at h7

theorem cont_byte_and127 {g : Nat} (h : g < 128) : (g ||| 0x80) &&& 0x7f = g := by
  rw [and127_eq_mod, or128_eq_add h]
  omega

theorem final_byte_and128 {g : Nat} (h : g < 128) : g &&& 0x80 = 0 := by
  apply Nat.eq_of_testBit_eq
  intro j
  rw [Nat.testBit_and, Nat.zero_testBit]
  have h80 : (0x80 : Nat) = 2 ^ 7 := by norm_num
  by_cases hj : j = 7
  · subst hj
    have : g.testBit 7 = false := Nat.testBit_lt_two_pow (by norm_num at h ⊢; omega)
    simp [this]
  · rw [h80, Nat.testBit_two_pow_of_ne (by omega)]
    simp

/-! Facts about the canonical group decomposition. -/

theorem groups_ne_nil (u : Nat) : groups u ≠ [] := by
  rw [groups]
  by_cases h : u < 128 <;> simp [h]

theorem groups_lt (u : Nat) : ∀ g ∈ groups u, g < 128 := by
  induction u using Nat.strongRecOn with
  | ind u ih =>
    rw [groups]
    by_cases h : u < 128
    · simp [h]
    · simp only [h, if_false, List.mem_cons]
      rintro g (rfl | hg)
      · omega
      · exact ih (u / 128) (Nat.div_lt_self (by omega) (by omega)) g hg

theorem groupsVal_groups (u : Nat) : groupsVal (groups u) = u := by
  induction u using Nat.strongRecOn with
  | ind u ih =>
    rw [groups]
    by_cases h : u < 128
    · simp [h, groupsVal]
    · simp only [h, if_false, groupsVal]
      rw [ih (u / 128) (Nat.div_lt_self (by omega) (by omega))]
      omega

theorem groups_length_le : ∀ (k u : Nat), u < 2 ^ (7 * (k + 1)) →
    (groups u).length ≤ k + 1 := by
  intro k
  induction k with
  | zero =>
    intro u hu
    rw [groups]
    have : u < 128 := by norm_num at hu; omega
    simp [this]
  | succ k ih =>
    intro u hu
    rw [groups]
    by_cases h : u < 128
    · simp [h]
    · simp only [h, if_false, List.length_cons]
      have hlt : u / 128 < 2 ^ (7 * (k + 1)) := by
        apply Nat.div_lt_of_lt_mul
        calc u < 2 ^ (7 * (k + 2)) := hu
          _ = 128 * 2 ^ (7 * (k + 1)) := by ring
      have := ih (u / 128) hlt
      omega

theorem wfEnc_cons {g : Nat} {gs : List Nat} (h : gs ≠ []) :
    wfEnc (g :: gs) = (g ||| 0x80) :: wfEnc gs := by
  cases gs with
  | nil => exact absurd rfl h
  | cons g' gs' => rfl

/-- `VarInt.write_unsigned_varint` succeeds on every value below `2 ^ 32`
and produces the canonical varint encoding. -/
theorem write_unsigned_varint_eq {u : Nat} (h : u < 2 ^ 32) :
    VarInt.write_unsigned_varint u = .ok (wfEnc (groups u)) := by
  induction u using Nat.strongRecOn with
  | ind u ih =>
    rw [VarInt.write_unsigned_varint]
    by_cases h128 : u < 128
    · rw [dif_neg (by simpa using (and_mask_zero_iff h).mpr h128)]
      rw [VarInt.packB, if_pos (by omega)]
      have hgroups : groups u = [u] := by rw [groups, if_pos h128]
      rw [hgroups]
      rfl
    · rw [dif_pos (by simp only [ne_eq, and_mask_zero_iff h]; omega)]
      have hdiv : u >>> 7 = u / 128 := by
        rw [Nat.shiftRight_eq_div_pow]
      have hrec := ih (u >>> 7) (by rw [hdiv]; exact Nat.div_lt_self (by omega) (by omega))
        (by rw [hdiv]; omega)
      rw [hrec]
      have hgroups : groups u = u % 128 :: groups (u / 128) := by
        rw [groups, if_neg h128]
      simp only []
      rw [hgroups, wfEnc_cons (groups_ne_nil (u / 128)), and127_eq_mod, hdiv]

/-- Correctness of the read loop on a well-formed encoding: starting at
shift position `i` with accumulator `value < 2 ^ i`, reading the bytes of
`wfEnc gs` accumulates `groupsVal gs * 2 ^ i`. -/
theorem readLoop_wfEnc : ∀ (gs : List Nat) (value i : Nat) (rest : List Nat),
    (∀ g ∈ gs, g < 128) → gs ≠ [] → i + 7 * gs.length ≤ 35 → value < 2 ^ i →
    VarInt.readLoop value i (readByte (wfEnc gs ++ rest)).1
        (readByte (wfEnc gs ++ rest)).2 = .ok (value + groupsVal gs * 2 ^ i, rest)
  | [], _, _, _, _, hne, _, _ => absurd rfl hne
  | [g], value, i, rest, hlt, _, _, hv => by
    have hg : g < 128 := hlt g (by simp)
    show VarInt.readLoop value i (readByte (g :: rest)).1 (readByte (g :: rest)).2 = _
    rw [readByte]
    rw [VarInt.readLoop, if_neg (by simp [final_byte_and128 hg])]
    rw [or_shift_add value g i hv]
    simp [groupsVal]
  | g :: g' :: gs', value, i, rest, hlt, _, hlen, hv => by
    have hg : g < 128 := hlt g (by simp)
    simp only [List.length_cons] at hlen
    have hpow : (2 : Nat) ^ (i + 7) = 2 ^ i * 128 := by rw [Nat.pow_add]
    rw [wfEnc_cons (by simp)]
    show VarInt.readLoop value i
      (readByte ((g ||| 0x80) :: (wfEnc (g' :: gs') ++ rest))).1
      (readByte ((g ||| 0x80) :: (wfEnc (g' :: gs') ++ rest))).2 = _
    rw [readByte]
    rw [VarInt.readLoop, if_pos (by simpa using cont_byte_and128 hg)]
    rw [dif_neg (by omega)]
    rw [cont_byte_and127 hg, or_shift_add value g i hv]
    have hrec := readLoop_wfEnc (g' :: gs') (value + g * 2 ^ i) (i + 7) rest
      (fun x hx => hlt x (by simp [hx]))
      (by simp) (by simp only [List.length_cons]; omega)
      (by
        have hb : g * 2 ^ i ≤ 127 * 2 ^ i := Nat.mul_le_mul_right _ (by omega)
        omega)
    rw [hrec]
    have hval : value + g * 2 ^ i + groupsVal (g' :: gs') * 2 ^ (i + 7)
        = value + groupsVal (g :: g' :: gs') * 2 ^ i := by
      simp only [groupsVal, hpow]
      ring
    rw [hval]

/-- `VarInt.read_unsigned_varint` decodes any well-formed encoding of at
most 5 groups, leaving the rest of the buffer untouched. -/
theorem read_unsigned_varint_wfEnc {gs : List Nat} (rest : List Nat)
    (h1 : ∀ g ∈ gs, g < 128) (h2 : gs ≠ []) (h3 : gs.length ≤ 5) :
    VarInt.read_unsigned_varint (wfEnc gs ++ rest) = .ok (groupsVal gs, rest) := by
  rw [VarInt.read_unsigned_varint]
  have := readLoop_wfEnc gs 0 0 rest h1 h2 (by omega) (by norm_num)
  simpa using this

/-- Unsigned varint round trip for every 32-bit value. -/
theorem unsigned_varint_roundtrip {u : Nat} (h : u < 2 ^ 32) (rest : List Nat) :
    VarInt.write_unsigned_varint u = .ok (wfEnc (groups u)) ∧
    VarInt.read_unsigned_varint (wfEnc (groups u) ++ rest) = .ok (u, rest) := by
  refine ⟨write_unsigned_varint_eq h, ?_⟩
  rw [read_unsigned_varint_wfEnc rest (groups_lt u) (groups_ne_nil u) ?_,
    groupsVal_groups]
  exact groups_length_le 4 u (by norm_num at h ⊢; omega)

/-! Fixed-width round trips. -/

theorem int16_decode_cons (b0 b1 : Nat) (rest : List Nat) :
    Int16T.decode (b0 :: b1 :: rest) =
      .ok (if 2 ^ 15 ≤ b0 * 2 ^ 8 + b1 then ((b0 * 2 ^ 8 + b1 : Nat) : Int) - 2 ^ 16
           else ((b0 * 2 ^ 8 + b1 : Nat) : Int), rest) := rfl

theorem int32_decode_cons (b0 b1 b2 b3 : Nat) (rest : List Nat) :
    Int32T.decode (b0 :: b1 :: b2 :: b3 :: rest) =
      .ok (if 2 ^ 31 ≤ b0 * 2 ^ 24 + b1 * 2 ^ 16 + b2 * 2 ^ 8 + b3 then
             ((b0 * 2 ^ 24 + b1 * 2 ^ 16 + b2 * 2 ^ 8 + b3 : Nat) : Int) - 2 ^ 32
           else ((b0 * 2 ^ 24 + b1 * 2 ^ 16 + b2 * 2 ^ 8 + b3 : Nat) : Int), rest) := rfl

theorem int16_roundtrip {v : Int} (h1 : -2 ^ 15 ≤ v) (h2 : v < 2 ^ 15) (rest : List Nat) :
    ∃ e, Int16T.encode v = .ok e ∧ e.length = 2 ∧
      Int16T.decode (e ++ rest) = .ok (v, rest) := by
  set n : Nat := (v % 2 ^ 16).toNat with hn
  have hkey : (n : Int) = v % 2 ^ 16 := by
    rw [hn, Int.toNat_of_nonneg (Int.emod_nonneg v (by norm_num))]
  have hn16 : n < 2 ^ 16 := by
    have hlt := Int.emod_lt_of_pos v (show (0 : Int) < 2 ^ 16 by norm_num)
    omega
  refine ⟨[n / 2 ^ 8 % 2 ^ 8, n % 2 ^ 8], ?_, rfl, ?_⟩
  · rw [Int16T.encode, if_pos ⟨h1, h2⟩]
  · rw [List.cons_append, List.cons_append, List.nil_append, int16_decode_cons]
    have hu : n / 2 ^ 8 % 2 ^ 8 * 2 ^ 8 + n % 2 ^ 8 = n := by omega
    rw [hu]
    have hv : (if 2 ^ 15 ≤ n then ((n : Nat) : Int) - 2 ^ 16 else ((n : Nat) : Int)) = v := by
      by_cases hc : 2 ^ 15 ≤ n
      · rw [if_pos hc]; omega
      · rw [if_neg hc]; omega
    rw [hv]

theorem int32_roundtrip {v : Int} (h1 : -2 ^ 31 ≤ v) (h2 : v < 2 ^ 31) (rest : List Nat) :
    ∃ e, Int32T.encode v = .ok e ∧ e.length = 4 ∧
      Int32T.decode (e ++ rest) = .ok (v, rest) := by
  set n : Nat := (v % 2 ^ 32).toNat with hn
  have hkey : (n : Int) = v % 2 ^ 32 := by
    rw [hn, Int.toNat_of_nonneg (Int.emod_nonneg v (by norm_num))]
  have hn32 : n < 2 ^ 32 := by
    have hlt := Int.emod_lt_of_pos v (show (0 : Int) < 2 ^ 32 by norm_num)
    omega
  refine ⟨[n / 2 ^ 24 % 2 ^ 8, n / 2 ^ 16 % 2 ^ 8, n / 2 ^ 8 % 2 ^ 8, n % 2 ^ 8],
    ?_, rfl, ?_⟩
  · rw [Int32T.encode, if_pos ⟨h1, h2⟩]
  · rw [List.cons_append, List.cons_append, List.cons_append, List.cons_append,
      List.nil_append, int32_decode_cons]
    have hu : n / 2 ^ 24 % 2 ^ 8 * 2 ^ 24 + n / 2 ^ 16 % 2 ^ 8 * 2 ^ 16 +
        n / 2 ^ 8 % 2 ^ 8 * 2 ^ 8 + n % 2 ^ 8 = n := by omega
    rw [hu]
    have hv : (if 2 ^ 31 ≤ n then ((n : Nat) : Int) - 2 ^ 32 else ((n : Nat) : Int)) = v := by
      by_cases hc : 2 ^ 31 ≤ n
      · rw [if_pos hc]; omega
      · rw [if_neg hc]; omega
    rw [hv]

/-! Zigzag facts. -/

theorem zigzag_ofNat {v : Int} (h1 : -2 ^ 31 ≤ v) (h2 : v < 2 ^ 31) :
    ∃ z : Nat, VarInt.zigzag v = Int.ofNat z ∧ z < 2 ^ 32 ∧
      (z : Int) = if 0 ≤ v then 2 * v else -(2 * v) - 1 := by
  cases v with
  | ofNat m =>
    rw [Int.ofNat_eq_natCast] at h1 h2 ⊢
    have hm : m < 2 ^ 31 := by exact_mod_cast h2
    have hshl : pyShl ((m : Nat) : Int) 1 = Int.ofNat (2 * m) := by
      rw [pyShl, Int.ofNat_eq_natCast]
      push_cast
      ring
    have hshr : pyShr ((m : Nat) : Int) 31 = Int.ofNat 0 := by
      rw [pyShr, Int.ofNat_eq_natCast]
      push_cast
      omega
    refine ⟨2 * m, ?_, by omega, ?_⟩
    · rw [VarInt.zigzag, hshl, hshr]
      simp only [pyXor, Nat.xor_zero]
    · rw [if_pos (by positivity)]
      push_cast
      ring
  | negSucc m =>
    have hm : m < 2 ^ 31 := by
      rw [Int.negSucc_eq] at h1
      omega
    have hshl : pyShl (Int.negSucc m) 1 = Int.negSucc (2 * m + 1) := by
      rw [pyShl, Int.negSucc_eq, Int.negSucc_eq]
      push_cast
      ring
    have hshr : pyShr (Int.negSucc m) 31 = Int.negSucc 0 := by
      rw [pyShr, Int.negSucc_eq, Int.negSucc_eq]
      push_cast
      omega
    refine ⟨2 * m + 1, ?_, by omega, ?_⟩
    · rw [VarInt.zigzag, hshl, hshr]
      simp only [pyXor, Nat.xor_zero]
    · rw [if_neg (by rw [Int.negSucc_eq]; omega), Int.negSucc_eq]
      push_cast
      ring

/-- The inverse zigzag transform computed by `read_varint` undoes
`zigzag`. -/
theorem unzigzag_zigzag {v : Int} (h1 : -2 ^ 31 ≤ v) (h2 : v < 2 ^ 31) :
    pyXor (Int.ofNat ((VarInt.zigzag v).toNat >>> 1))
      (-(Int.ofNat ((VarInt.zigzag v).toNat &&& 1))) = v := by
  obtain ⟨z, hz, hz32, hzv⟩ := zigzag_ofNat h1 h2
  rw [hz]
  have htn : (Int.ofNat z).toNat = z := rfl
  rw [htn]
  have hdiv : z >>> 1 = z / 2 := by
    rw [Nat.shiftRight_eq_div_pow]
  have hmod : z &&& 1 = z % 2 := Nat.and_one_is_mod z
  by_cases hv : 0 ≤ v
  · have hzeq : (z : Int) = 2 * v := by rw [hzv, if_pos hv]
    have he : z % 2 = 0 := by omega
    have hq : z / 2 = v.toNat := by omega
    rw [hdiv, hmod, he, hq]
    have hneg : -(Int.ofNat 0) = Int.ofNat 0 := rfl
    rw [hneg]
    simp only [pyXor, Nat.xor_zero]
    rw [Int.ofNat_eq_natCast]
    omega
  · have hzeq : (z : Int) = -(2 * v) - 1 := by rw [hzv, if_neg hv]
    have he : z % 2 = 1 := by omega
    rw [hdiv, hmod, he]
    have hneg : -(Int.ofNat 1) = Int.negSucc 0 := rfl
    rw [hneg]
    simp only [pyXor, Nat.xor_zero]
    rw [Int.negSucc_eq]
    push_cast
    omega

/-! Reduction helpers for the `Except` monad and small varints. -/

@[simp] theorem ok_bind {α β : Type} (a : α) (f : α → Except PErr β) :
    (Except.ok a >>= f) = f a := rfl

@[simp] theorem error_bind {α β : Type} (e : PErr) (f : α → Except PErr β) :
    ((Except.error e : Except PErr α) >>= f) = Except.error e := rfl

theorem groups_small {u : Nat} (h : u < 128) : groups u = [u] := by
  rw [groups, if_pos h]

/-- An unsigned varint consisting of a single byte without the continuation
bit decodes to that byte. -/
theorem read_single {b : Nat} (h : b < 128) (rest : List Nat) :
    VarInt.read_unsigned_varint (b :: rest) = .ok (b, rest) := by
  have hx := @read_unsigned_varint_wfEnc [b] rest
    (by simpa using h) (by simp) (by simp)
  simpa [wfEnc, groupsVal] using hx

/-! Compact length prefix (`VarInt.len_encoder` / `VarInt.len_decoder`). -/

theorem len_prefix_roundtrip {L : Int} (h1 : -1 ≤ L) (h2 : L + 1 < 2 ^ 32)
    (rest : List Nat) :
    ∃ e, VarInt.len_encoder L = .ok e ∧
      VarInt.len_decoder (e ++ rest) = .ok (L, rest) := by
  set u : Nat := (L + 1).toNat with hu
  have hcast : (u : Int) = L + 1 := by omega
  have hu32 : u < 2 ^ 32 := by omega
  refine ⟨wfEnc (groups u), ?_, ?_⟩
  · rw [VarInt.len_encoder, ← hu]
    exact write_unsigned_varint_eq hu32
  · rw [VarInt.len_decoder]
    rw [(unsigned_varint_roundtrip hu32 rest).2]
    simp only [ok_bind]
    rw [hcast]
    norm_num

/-! String / Bytes / CompactBytes payload lemmas. -/

theorem stringT_roundtrip {s : List Nat} (h : s.length < 2 ^ 15) (rest : List Nat) :
    ∃ e, StringT.encode (some s) = .ok e ∧
      StringT.decode (e ++ rest) = .ok (some s, rest) := by
  obtain ⟨lp, hlp, hlen, hdec⟩ := int16_roundtrip (v := (s.length : Int))
    (by omega) (by exact_mod_cast h) (s ++ rest)
  refine ⟨lp ++ s, ?_, ?_⟩
  · rw [StringT.encode]
    simp [hlp]
  · rw [List.append_assoc, StringT.decode, hdec]
    simp only [ok_bind]
    rw [if_neg (by omega)]
    have ht : ((s.length : Int)).toNat = s.length := Int.toNat_natCast s.length
    rw [ht, readN]
    simp [List.take_left, List.drop_left]

theorem bytes_roundtrip {s : List Nat} (h : s.length < 2 ^ 31) (rest : List Nat) :
    ∃ e, Bytes.encode (some s) = .ok e ∧
      Bytes.decode (e ++ rest) = .ok (some s, rest) := by
  obtain ⟨lp, hlp, hlen, hdec⟩ := int32_roundtrip (v := (s.length : Int))
    (by omega) (by exact_mod_cast h) (s ++ rest)
  refine ⟨lp ++ s, ?_, ?_⟩
  · rw [Bytes.encode]
    simp [hlp]
  · rw [List.append_assoc, Bytes.decode, hdec]
    simp only [ok_bind]
    rw [if_neg (by omega)]
    have ht : ((s.length : Int)).toNat = s.length := Int.toNat_natCast s.length
    rw [ht, readN]
    simp [List.take_left, List.drop_left]

theorem bytes_decode_underrun {L : Int} (h0 : 0 ≤ L) (h2 : L < 2 ^ 31)
    {lp short : List Nat} (hlp : Int32T.encode L = .ok lp)
    (hshort : (short.length : Int) < L) :
    Bytes.decode (lp ++ short) = .error .bufferUnderrun := by
  obtain ⟨e, he, hlen, hdec⟩ := int32_roundtrip (v := L) (by omega) h2 short
  rw [he] at hlp
  cases hlp
  rw [Bytes.decode, hdec]
  simp only [ok_bind]
  rw [if_neg (by omega)]
  have htake : List.take L.toNat short = short :=
    List.take_of_length_le (by omega)
  rw [readN]
  simp only [htake]
  rw [if_neg (by omega)]

theorem stringT_decode_underrun {L : Int} (h0 : 0 ≤ L) (h2 : L < 2 ^ 15)
    {lp short : List Nat} (hlp : Int16T.encode L = .ok lp)
    (hshort : (short.length : Int) < L) :
    StringT.decode (lp ++ short) = .error .bufferUnderrun := by
  obtain ⟨e, he, hlen, hdec⟩ := int16_roundtrip (v := L) (by omega) h2 short
  rw [he] at hlp
  cases hlp
  rw [StringT.decode, hdec]
  simp only [ok_bind]
  rw [if_neg (by omega)]
  have htake : List.take L.toNat short = short :=
    List.take_of_length_le (by omega)
  rw [readN]
  simp only [htake]
  rw [if_neg (by omega)]

/-! CompactBytes facts. -/

theorem compactBytes_encode_empty : CompactBytes.encode (some []) = .ok [1] := by
  rw [CompactBytes.encode]
  have h : VarInt.len_encoder (0 : Int) = .ok [1] := by
    rw [VarInt.len_encoder]
    have h1 : ((0 : Int) + 1).toNat = 1 := by norm_num
    rw [h1, write_unsigned_varint_eq (by norm_num), groups_small (by norm_num)]
    rfl
  simp [h]

theorem compactBytes_decode_one : CompactBytes.decode [1] = .ok (some [], []) := by
  rw [CompactBytes.decode, VarInt.len_decoder,
    show ([1] : List Nat) = 1 :: ([] : List Nat) from rfl,
    read_single (by norm_num) []]
  simp [readN]

theorem compactBytes_decode_zero : CompactBytes.decode [0] = .ok (none, []) := by
  rw [CompactBytes.decode, VarInt.len_decoder,
    show ([0] : List Nat) = 0 :: ([] : List Nat) from rfl,
    read_single (by norm_num) []]
  norm_num

/-! Round-trip machinery for composite codecs. -/

/-- A value round-trips through a codec: encoding succeeds, and decoding
the encoding (in front of any remaining bytes) returns the value and the
remaining bytes. -/
def RT {α : Type} (C : Codec α) (x : α) : Prop :=
  ∀ rest, ∃ e, C.encode x = .ok e ∧ C.decode (e ++ rest) = .ok (x, rest)

theorem rt_int32 {v : Int} (h1 : -2 ^ 31 ≤ v) (h2 : v < 2 ^ 31) :
    RT int32Codec v := by
  intro rest
  obtain ⟨e, he, _, hd⟩ := int32_roundtrip h1 h2 rest
  exact ⟨e, he, hd⟩

theorem rt_string {s : List Nat} (h : s.length < 2 ^ 15) :
    RT stringCodec (some s) := by
  intro rest
  exact stringT_roundtrip h rest

theorem rt_schema2 {α β : Type} {C1 : Codec α} {C2 : Codec β} {x : α} {y : β}
    (hx : RT C1 x) (hy : RT C2 y) : RT (schema2 C1 C2) (x, y) := by
  intro rest
  obtain ⟨e2, he2, hd2⟩ := hy rest
  obtain ⟨e1, he1, hd1⟩ := hx (e2 ++ rest)
  refine ⟨e1 ++ e2, ?_, ?_⟩
  · rw [schema2]
    simp [he1, he2]
  · rw [schema2]
    simp only [List.append_assoc, hd1, ok_bind, hd2]

theorem rt_items {α : Type} {C : Codec α} : ∀ {xs : List α},
    (∀ x ∈ xs, RT C x) → ∀ rest, ∃ e, encodeItems C xs = .ok e ∧
      decodeItems C xs.length (e ++ rest) = .ok (xs, rest)
  | [], _, rest => ⟨[], rfl, rfl⟩
  | x :: xs, h, rest => by
    obtain ⟨es, hes, hds⟩ :=
      @rt_items _ _ xs (fun y hy => h y (List.mem_cons_of_mem x hy)) rest
    obtain ⟨e, he, hd⟩ := h x (by simp) (es ++ rest)
    refine ⟨e ++ es, ?_, ?_⟩
    · rw [encodeItems]
      simp [he, hes]
    · rw [List.length_cons, decodeItems]
      simp only [List.append_assoc, hd, ok_bind, hds]

theorem rt_array {α : Type} {C : Codec α} {xs : List α}
    (h : ∀ x ∈ xs, RT C x) (hlen : xs.length < 2 ^ 31) :
    RT (arrayCodec C) (some xs) := by
  intro rest
  obtain ⟨es, hes, hds⟩ := rt_items h rest
  obtain ⟨lp, hlp, _, hdlp⟩ := int32_roundtrip (v := (xs.length : Int))
    (by omega) (by exact_mod_cast hlen) (es ++ rest)
  refine ⟨lp ++ es, ?_, ?_⟩
  · show arrayEncode C (some xs) = _
    rw [arrayEncode]
    simp [hlp, hes]
  · show arrayDecode C ((lp ++ es) ++ rest) = _
    rw [arrayDecode, List.append_assoc, hdlp]
    simp only [ok_bind]
    rw [if_neg (by omega)]
    have ht : ((xs.length : Int)).toNat = xs.length := Int.toNat_natCast xs.length
    rw [ht, hds]
    simp only [ok_bind]

/-! Facts about `ldiffN` and the step-indexed integer write loop. -/

theorem ldiffN_testBit (m n : Nat) (i : Nat) :
    (ldiffN m n).testBit i = (m.testBit i && !(n.testBit i)) := by
  rw [ldiffN, Nat.testBit_xor, Nat.testBit_and]
  cases hm : m.testBit i <;> cases hn : n.testBit i <;> rfl

theorem ldiffN_le (m n : Nat) : ldiffN m n ≤ m := by
  apply Nat.le_of_testBit
  intro i hi
  rw [ldiffN_testBit] at hi
  exact (Bool.and_elim_left hi)

theorem ldiffN_mask_ne_zero {m : Nat} (h : m < 2 ^ 31) :
    ldiffN 0xffffff80 m ≠ 0 := by
  intro h0
  have hb : (ldiffN 0xffffff80 m).testBit 31 = false := by
    rw [h0]; exact Nat.zero_testBit 31
  rw [ldiffN_testBit, testBit_mask] at hb
  have hm31 : m.testBit 31 = false := Nat.testBit_lt_two_pow h
  rw [hm31] at hb
  norm_num at hb

/-- With enough fuel, the integer write loop terminates successfully on
every non-negative value below `2 ^ 32`. -/
theorem writeLoopInt_ok : ∀ (k : Nat) (n : Nat) (acc : List Nat),
    n < 2 ^ (7 * (k + 1)) → n < 2 ^ 32 →
    ∃ bs, VarInt.writeLoopInt (k + 1) (Int.ofNat n) acc = some (.ok bs) := by
  intro k
  induction k with
  | zero =>
    intro n acc hk h32
    have h128 : n < 128 := by norm_num at hk; omega
    rw [VarInt.writeLoopInt]
    rw [if_neg (by
      simp only [pyAnd, ne_eq, Int.ofNat_eq_natCast, Int.natCast_eq_zero, not_not]
      exact (and_mask_zero_iff h32).mpr h128)]
    rw [VarInt.packBInt, if_pos (by
      constructor
      · rw [Int.ofNat_eq_natCast]; omega
      · rw [Int.ofNat_eq_natCast]; exact_mod_cast Nat.le_of_lt_succ (by omega))]
    exact ⟨_, rfl⟩
  | succ k ih =>
    intro n acc hk h32
    by_cases h128 : n < 128
    · rw [VarInt.writeLoopInt]
      rw [if_neg (by
        simp only [pyAnd, ne_eq, Int.ofNat_eq_natCast, Int.natCast_eq_zero, not_not]
        exact (and_mask_zero_iff h32).mpr h128)]
      rw [VarInt.packBInt, if_pos (by
        constructor
        · rw [Int.ofNat_eq_natCast]; omega
        · rw [Int.ofNat_eq_natCast]; exact_mod_cast Nat.le_of_lt_succ (by omega))]
      exact ⟨_, rfl⟩
    · rw [VarInt.writeLoopInt]
      rw [if_pos (by
        simp only [pyAnd, ne_eq, Int.ofNat_eq_natCast, Int.natCast_eq_zero]
        exact fun h0 => h128 ((and_mask_zero_iff h32).mp h0))]
      have hb : pyOr (pyAnd (Int.ofNat n) 0x7f) 0x80 = Int.ofNat ((n &&& 0x7f) ||| 0x80) := by
        rfl
      rw [hb, VarInt.packBInt, if_pos (by
        have hle : (n &&& 0x7f) ||| 0x80 < 2 ^ 8 :=
          Nat.or_lt_two_pow (by rw [and127_eq_mod]; omega) (by norm_num)
        constructor
        · rw [Int.ofNat_eq_natCast]; omega
        · rw [Int.ofNat_eq_natCast]; exact_mod_cast Nat.le_of_lt_succ (by omega))]
      have hshr : pyShr (Int.ofNat n) 7 = Int.ofNat (n / 128) := by
        rw [pyShr, Int.ofNat_eq_natCast, Int.ofNat_eq_natCast]
        omega
      rw [hshr]
      apply ih
      · have : (2 : Nat) ^ (7 * (k + 2)) = 2 ^ (7 * (k + 1)) * 128 := by ring
        rw [this] at hk
        omega
      · omega

/-- The integer write loop diverges (returns `none` for every fuel) on all
negative 32-bit values: the loop condition never becomes false. -/
theorem writeLoopInt_neg_diverges : ∀ (fuel : Nat) (v : Int) (acc : List Nat),
    -2 ^ 31 ≤ v → v ≤ -1 → VarInt.writeLoopInt fuel v acc = none := by
  intro fuel
  induction fuel with
  | zero => intro v acc _ _; rfl
  | succ fuel ih =>
    intro v acc h1 h2
    obtain ⟨m, rfl⟩ : ∃ m, v = Int.negSucc m := by
      refine ⟨(-v - 1).toNat, ?_⟩
      rw [Int.negSucc_eq]
      omega
    have hm : m < 2 ^ 31 := by
      rw [Int.negSucc_eq] at h1
      omega
    rw [VarInt.writeLoopInt]
    rw [if_pos (by
      simp only [pyAnd, ne_eq, Int.ofNat_eq_natCast, Int.natCast_eq_zero]
      exact ldiffN_mask_ne_zero hm)]
    have hb : pyOr (pyAnd (Int.negSucc m) 0x7f) 0x80 = Int.ofNat (ldiffN 0x7f m ||| 0x80) := by
      rfl
    rw [hb, VarInt.packBInt, if_pos (by
      have hle : ldiffN 0x7f m ||| 0x80 < 2 ^ 8 :=
        Nat.or_lt_two_pow (lt_of_le_of_lt (ldiffN_le 0x7f m) (by norm_num)) (by norm_num)
      constructor
      · rw [Int.ofNat_eq_natCast]; omega
      · rw [Int.ofNat_eq_natCast]; exact_mod_cast Nat.le_of_lt_succ (by omega))]
    apply ih
    · rw [pyShr, Int.negSucc_eq] at *
      omega
    · rw [pyShr, Int.negSucc_eq]
      omega

/-! Step lemmas for the read loop, used by the overflow claim. -/

theorem readLoop_cont_step {b : Nat} (hb : b &&& 0x80 ≠ 0) (value i : Nat)
    (l : List Nat) (h28 : ¬ i + 7 > 28) :
    VarInt.readLoop value i b l =
      VarInt.readLoop (value ||| ((b &&& 0x7f) <<< i)) (i + 7)
        (readByte l).1 (readByte l).2 := by
  rw [VarInt.readLoop, if_pos hb, dif_neg h28]

theorem readLoop_overflow_step {b : Nat} (hb : b &&& 0x80 ≠ 0) (value i : Nat)
    (l : List Nat) (h28 : i + 7 > 28) :
    VarInt.readLoop value i b l =
      .error (.overflow (value ||| ((b &&& 0x7f) <<< i))) := by
  rw [VarInt.readLoop, if_pos hb, dif_pos h28]

/-! The claims. -/

/-- C1: the claim states that `TaggedField.decode` reads an unsigned varint
tag, then a length via the varint length-bias decoder, and for every
non-negative decoded logical length `L` (including `L = 0`) reads exactly
`L` raw bytes, with `null` only for logical length `-1`.  The code instead
reads `size - 1` bytes when the logical length `size` is positive and
returns `null` whenever `size ≤ 0`: on the buffer `[0x00, 0x03, 0x61,
0x62]` (tag 0, stored length 3, logical length 2, payload "ab") it returns
only the single byte `0x61` and leaves `0x62` unread, and on `[0x05,
0x01]` (tag 5, logical length 0) it returns `null` instead of an empty
byte string. -/
theorem claim_C1_taggedfield_decode_bug :
    TaggedField.decode [0, 3, 97, 98] = .ok ((0, some [97]), [98]) ∧
    TaggedField.decode [5, 1] = .ok ((5, none), []) := by
  constructor
  · simp [TaggedField.decode, VarInt.len_decoder,
      read_single (show (0 : Nat) < 128 by norm_num),
      read_single (show (3 : Nat) < 128 by norm_num), readN]
  · simp [TaggedField.decode, VarInt.len_decoder,
      read_single (show (5 : Nat) < 128 by norm_num),
      read_single (show (1 : Nat) < 128 by norm_num), readN]

/-- C2: the claim states that `TaggedField.encode (tag, value)` emits the
tag varint, then the length-bias encoding of `-1` for a null value or of
`len(value)` otherwise, then the value bytes when non-null — and in
particular that encoding `(tag, null)` succeeds.  The code computes
`size = -1` for a null value but then evaluates `... + val`, so `bytes +
None` raises `TypeError`: encoding `(0, null)` fails.  The non-null path
behaves as claimed, e.g. `(1, b"a")` encodes to `[0x01, 0x02, 0x61]`. -/
theorem claim_C2_taggedfield_encode_none_typeerror :
    TaggedField.encode (0, none) = .error .typeError ∧
    TaggedField.encode (1, some [97]) = .ok [1, 2, 97] := by
  have h0 : VarInt.write_unsigned_varint 0 = .ok [0] := by
    rw [write_unsigned_varint_eq (by norm_num), groups_small (by norm_num)]
    rfl
  have h1 : VarInt.write_unsigned_varint 1 = .ok [1] := by
    rw [write_unsigned_varint_eq (by norm_num), groups_small (by norm_num)]
    rfl
  have h2 : VarInt.write_unsigned_varint 2 = .ok [2] := by
    rw [write_unsigned_varint_eq (by norm_num), groups_small (by norm_num)]
    rfl
  constructor
  · simp [TaggedField.encode, VarInt.len_encoder, h0]
  · simp [TaggedField.encode, VarInt.len_encoder, h1, h2]

/-- C3: for an `Array` whose element codec is the 2-field `Schema`
`(Int32, String)`, encoding any non-null finite sequence of pairs of
in-range 32-bit integers and non-null strings (each string's byte length
within the Int16 length-prefix domain, and the sequence length within the
Int32 length-prefix domain) and decoding the result yields the identical
ordered sequence of tuples, leaving any following bytes untouched. -/
theorem claim_C3_array_schema_roundtrip (items : List (Int × List Nat))
    (hbound : ∀ p ∈ items, -2 ^ 31 ≤ p.1 ∧ p.1 < 2 ^ 31 ∧ p.2.length < 2 ^ 15)
    (hlen : items.length < 2 ^ 31) (rest : List Nat) :
    ∃ e, (arrayCodec (schema2 int32Codec stringCodec)).encode
        (some (items.map (fun p => (p.1, some p.2)))) = .ok e ∧
      (arrayCodec (schema2 int32Codec stringCodec)).decode (e ++ rest)
        = .ok (some (items.map (fun p => (p.1, some p.2))), rest) := by
  have h := @rt_array _ (schema2 int32Codec stringCodec)
    (items.map (fun p => (p.1, some p.2)))
    (by
      intro x hx
      simp only [List.mem_map] at hx
      obtain ⟨p, hp, rfl⟩ := hx
      obtain ⟨hp1, hp2, hp3⟩ := hbound p hp
      exact rt_schema2 (rt_int32 hp1 hp2) (rt_string hp3))
    (by simpa using hlen)
  exact h rest

/-- Witness for C3 at the spec's example `[(1, "a"), (2, "bb")]` (strings
as their UTF-8 bytes). -/
theorem claim_C3_witness :
    ∃ e, (arrayCodec (schema2 int32Codec stringCodec)).encode
        (some [(1, some [97]), (2, some [98, 98])]) = .ok e ∧
      (arrayCodec (schema2 int32Codec stringCodec)).decode (e ++ [])
        = .ok (some [(1, some [97]), (2, some [98, 98])], []) := by
  have h := claim_C3_array_schema_roundtrip [(1, [97]), (2, [98, 98])]
    (by decide) (by decide) []
  simpa using h

/-- C4 counterexample: the claim quantifies over every logical length
`L ≥ -1`, but at `L = 2 ^ 32 - 1` the encoder fails: `L + 1 = 2 ^ 32` has
all of bits 7..31 clear, so the loop of `write_unsigned_varint` exits
immediately and the final `struct.pack(">B", 2 ^ 32)` raises
`struct.error` instead of emitting the varint of `L + 1`. -/
theorem claim_C4_counterexample :
    VarInt.len_encoder (2 ^ 32 - 1) = .error .structError := by
  rw [VarInt.len_encoder]
  have h1 : ((2 ^ 32 - 1 : Int) + 1).toNat = 4294967296 := by
    norm_num
    rfl
  rw [h1]
  rw [VarInt.write_unsigned_varint]
  rw [dif_neg (by decide)]
  rw [VarInt.packB, if_neg (by norm_num)]

/-- C4 (amended): the compact length-prefix codec applies the `+1` bias
symmetrically for every logical length `L` with `-1 ≤ L` and
`L + 1 < 2 ^ 32`: `len_encoder` emits the unsigned varint of `L + 1` and
`len_decoder` maps it back to `L`.  Beyond that range symmetry is not
guaranteed: at `L = 2 ^ 32 - 1` the encoder's final `struct.pack` fails
(see the counterexample).  In particular `CompactBytes.encode` of the
empty non-null blob emits stored varint value 1, stored varint 1 decodes
to the empty non-null blob, and stored varint 0 decodes to null. -/
theorem claim_C4_amended :
    (∀ (L : Int) (rest : List Nat), -1 ≤ L → L + 1 < 2 ^ 32 →
      ∃ e, VarInt.len_encoder L = .ok e ∧
        VarInt.len_decoder (e ++ rest) = .ok (L, rest)) ∧
    CompactBytes.encode (some []) = .ok [1] ∧
    CompactBytes.decode [1] = .ok (some [], []) ∧
    CompactBytes.decode [0] = .ok (none, []) :=
  ⟨fun L rest h1 h2 => len_prefix_roundtrip h1 h2 rest,
   compactBytes_encode_empty, compactBytes_decode_one, compactBytes_decode_zero⟩

/-- Witness for C4 (amended) at `L = 2`. -/
theorem claim_C4_witness :
    ∃ e, VarInt.len_encoder 2 = .ok e ∧
      VarInt.len_decoder (e ++ [9]) = .ok (2, [9]) :=
  claim_C4_amended.1 2 [9] (by norm_num) (by norm_num)

/-- C5: `read_unsigned_varint` accepts every well-formed encoding of at
most five 7-bit groups (continuation bit on all bytes but the last),
returning the denoted value; and as soon as a fifth continuation byte is
encountered it fails with the overflow error, regardless of what follows
in the buffer. -/
theorem claim_C5_varint_overflow :
    (∀ (gs rest : List Nat), gs ≠ [] → gs.length ≤ 5 → (∀ g ∈ gs, g < 128) →
      VarInt.read_unsigned_varint (wfEnc gs ++ rest) = .ok (groupsVal gs, rest)) ∧
    (∀ (b0 b1 b2 b3 b4 : Nat) (rest : List Nat),
      b0 &&& 0x80 ≠ 0 → b1 &&& 0x80 ≠ 0 → b2 &&& 0x80 ≠ 0 → b3 &&& 0x80 ≠ 0 →
      b4 &&& 0x80 ≠ 0 →
      ∃ v, VarInt.read_unsigned_varint (b0 :: b1 :: b2 :: b3 :: b4 :: rest)
        = .error (.overflow v)) := by
  constructor
  · intro gs rest h1 h2 h3
    exact read_unsigned_varint_wfEnc rest h3 h1 h2
  · intro b0 b1 b2 b3 b4 rest h0 h1 h2 h3 h4
    have hcomp : VarInt.read_unsigned_varint (b0 :: b1 :: b2 :: b3 :: b4 :: rest)
        = .error (.overflow (((((0 ||| ((b0 &&& 0x7f) <<< 0)) |||
            ((b1 &&& 0x7f) <<< 7)) ||| ((b2 &&& 0x7f) <<< 14)) |||
            ((b3 &&& 0x7f) <<< 21)) ||| ((b4 &&& 0x7f) <<< 28))) := by
      rw [VarInt.read_unsigned_varint]
      show VarInt.readLoop 0 0 b0 (b1 :: b2 :: b3 :: b4 :: rest) = _
      rw [readLoop_cont_step h0 _ _ _ (by norm_num)]
      show VarInt.readLoop _ _ b1 (b2 :: b3 :: b4 :: rest) = _
      rw [readLoop_cont_step h1 _ _ _ (by norm_num)]
      show VarInt.readLoop _ _ b2 (b3 :: b4 :: rest) = _
      rw [readLoop_cont_step h2 _ _ _ (by norm_num)]
      show VarInt.readLoop _ _ b3 (b4 :: rest) = _
      rw [readLoop_cont_step h3 _ _ _ (by norm_num)]
      show VarInt.readLoop _ _ b4 rest = _
      rw [readLoop_overflow_step h4 _ _ _ (by norm_num)]
    exact ⟨_, hcomp⟩

/-- Witness for C5: the 5-byte encoding of `2 ^ 31 - 1` decodes
successfully, and five continuation bytes fail with overflow. -/
theorem claim_C5_witness :
    VarInt.read_unsigned_varint [255, 255, 255, 255, 7] = .ok (2147483647, []) ∧
    (∃ v, VarInt.read_unsigned_varint [128, 128, 128, 128, 128]
      = .error (.overflow v)) := by
  constructor
  · have h := claim_C5_varint_overflow.1 [127, 127, 127, 127, 7] []
      (by decide) (by decide) (by decide)
    simpa [wfEnc, groupsVal] using h
  · have h := claim_C5_varint_overflow.2 128 128 128 128 128 []
      (by decide) (by decide) (by decide) (by decide) (by decide)
    simpa using h

/-- C6: the signed varint codec is the unsigned codec composed with the
zigzag transform: for every 32-bit signed `v`, `write_varint v` succeeds
and `read_varint` decodes it back to `v`; moreover `zigzag (-1) = 1` and
`zigzag 1 = 2`. -/
theorem claim_C6_zigzag_roundtrip :
    (∀ (v : Int) (rest : List Nat), -2 ^ 31 ≤ v → v < 2 ^ 31 →
      ∃ e, VarInt.write_varint v = .ok e ∧
        VarInt.read_varint (e ++ rest) = .ok (v, rest)) ∧
    VarInt.zigzag (-1) = 1 ∧ VarInt.zigzag 1 = 2 := by
  refine ⟨?_, by decide, by decide⟩
  intro v rest h1 h2
  obtain ⟨z, hz, hz32, hzv⟩ := zigzag_ofNat h1 h2
  have htn : (VarInt.zigzag v).toNat = z := by rw [hz]; rfl
  refine ⟨wfEnc (groups z), ?_, ?_⟩
  · rw [VarInt.write_varint, htn]
    exact write_unsigned_varint_eq hz32
  · rw [VarInt.read_varint]
    rw [(unsigned_varint_roundtrip hz32 rest).2]
    simp only [ok_bind]
    have hu := unzigzag_zigzag h1 h2
    rw [htn] at hu
    rw [hu]

/-- Witness for C6 at `-1`, `0`, `1`, `Int32.MIN` and `Int32.MAX`. -/
theorem claim_C6_witness :
    (∃ e, VarInt.write_varint (-1) = .ok e ∧ VarInt.read_varint (e ++ []) = .ok (-1, [])) ∧
    (∃ e, VarInt.write_varint 0 = .ok e ∧ VarInt.read_varint (e ++ []) = .ok (0, [])) ∧
    (∃ e, VarInt.write_varint 1 = .ok e ∧ VarInt.read_varint (e ++ []) = .ok (1, [])) ∧
    (∃ e, VarInt.write_varint (-2147483648) = .ok e ∧
      VarInt.read_varint (e ++ []) = .ok (-2147483648, [])) ∧
    (∃ e, VarInt.write_varint 2147483647 = .ok e ∧
      VarInt.read_varint (e ++ []) = .ok (2147483647, [])) :=
  ⟨claim_C6_zigzag_roundtrip.1 (-1) [] (by norm_num) (by norm_num),
   claim_C6_zigzag_roundtrip.1 0 [] (by norm_num) (by norm_num),
   claim_C6_zigzag_roundtrip.1 1 [] (by norm_num) (by norm_num),
   claim_C6_zigzag_roundtrip.1 (-2147483648) [] (by norm_num) (by norm_num),
   claim_C6_zigzag_roundtrip.1 2147483647 [] (by norm_num) (by norm_num)⟩

/-- C7: when `read_unsigned_varint` reaches end of buffer mid-decode, the
missing byte is treated as byte value 0, the loop terminates, and the
value accumulated so far is returned; in particular decoding from an
empty buffer returns 0 rather than failing. -/
theorem claim_C7_eof_as_zero :
    readByte [] = (0, []) ∧
    (∀ (value i : Nat), VarInt.readLoop value i 0 [] = .ok (value, [])) ∧
    VarInt.read_unsigned_varint [] = .ok (0, []) := by
  refine ⟨rfl, ?_, ?_⟩
  · intro value i
    rw [VarInt.readLoop, if_neg (by decide)]
    simp
  · rw [VarInt.read_unsigned_varint]
    show VarInt.readLoop 0 0 0 [] = _
    rw [VarInt.readLoop, if_neg (by decide)]
    simp

/-- C8: for `Bytes.decode` (Int32 length prefix) and `String.decode`
(Int16 length prefix), a non-negative decoded length `L` with fewer than
`L` bytes remaining fails with the buffer-underrun error and returns no
partial value, while exactly `L` available bytes are returned (the UTF-8
transcoding for `String` being the identity on the byte-sequence
model). -/
theorem claim_C8_buffer_underrun (L : Nat) (val short rest : List Nat)
    (hval : val.length = L) (hshort : short.length < L) :
    (L < 2 ^ 31 →
      ∃ lp, Int32T.encode L = .ok lp ∧
        Bytes.decode (lp ++ (val ++ rest)) = .ok (some val, rest) ∧
        Bytes.decode (lp ++ short) = .error .bufferUnderrun) ∧
    (L < 2 ^ 15 →
      ∃ lp, Int16T.encode L = .ok lp ∧
        StringT.decode (lp ++ (val ++ rest)) = .ok (some val, rest) ∧
        StringT.decode (lp ++ short) = .error .bufferUnderrun) := by
  constructor
  · intro hL
    obtain ⟨lp, hlp, hlen4, hdec⟩ := int32_roundtrip (v := (L : Int))
      (by omega) (by exact_mod_cast hL) (val ++ rest)
    refine ⟨lp, hlp, ?_, ?_⟩
    · rw [Bytes.decode, hdec]
      simp only [ok_bind]
      rw [if_neg (by omega)]
      have ht : ((L : Int)).toNat = L := Int.toNat_natCast L
      rw [ht, readN]
      subst hval
      simp [List.take_left, List.drop_left]
    · exact bytes_decode_underrun (by omega) (by exact_mod_cast hL) hlp
        (by exact_mod_cast hshort)
  · intro hL
    obtain ⟨lp, hlp, hlen2, hdec⟩ := int16_roundtrip (v := (L : Int))
      (by omega) (by exact_mod_cast hL) (val ++ rest)
    refine ⟨lp, hlp, ?_, ?_⟩
    · rw [StringT.decode, hdec]
      simp only [ok_bind]
      rw [if_neg (by omega)]
      have ht : ((L : Int)).toNat = L := Int.toNat_natCast L
      rw [ht, readN]
      subst hval
      simp [List.take_left, List.drop_left]
    · exact stringT_decode_underrun (by omega) (by exact_mod_cast hL) hlp
        (by exact_mod_cast hshort)

/-- Witness for C8 at `L = 2`, payload `[1, 2]`, a one-byte truncated
buffer `[9]`, and trailing bytes `[7]`. -/
theorem claim_C8_witness :
    (∃ lp, Int32T.encode 2 = .ok lp ∧
      Bytes.decode (lp ++ ([1, 2] ++ [7])) = .ok (some [1, 2], [7]) ∧
      Bytes.decode (lp ++ [9]) = .error .bufferUnderrun) ∧
    (∃ lp, Int16T.encode 2 = .ok lp ∧
      StringT.decode (lp ++ ([1, 2] ++ [7])) = .ok (some [1, 2], [7]) ∧
      StringT.decode (lp ++ [9]) = .error .bufferUnderrun) :=
  ⟨(claim_C8_buffer_underrun 2 [1, 2] [9] [7] rfl (by norm_num)).1 (by norm_num),
   (claim_C8_buffer_underrun 2 [1, 2] [9] [7] rfl (by norm_num)).2 (by norm_num)⟩

/-- C9: for the classic `Array` codec with its fixed-width Int32 length
prefix, a decoded length strictly below `-1` (e.g. `-2`) yields the empty
list, not null and not an error: only exactly `-1` is the null sentinel,
and iterating `range` of a negative count decodes no elements.  This
holds for an arbitrary element codec. -/
theorem claim_C9_negative_array_length {α : Type} (C : Codec α) (len : Int)
    (h1 : -2 ^ 31 ≤ len) (h2 : len < -1) (rest : List Nat) :
    ∃ lp, Int32T.encode len = .ok lp ∧
      arrayDecode C (lp ++ rest) = .ok (some [], rest) := by
  obtain ⟨lp, hlp, hlen4, hdec⟩ := int32_roundtrip h1 (by omega) rest
  refine ⟨lp, hlp, ?_⟩
  rw [arrayDecode, hdec]
  simp only [ok_bind]
  rw [if_neg (by omega)]
  have ht : len.toNat = 0 := by omega
  rw [ht]
  rfl

/-- Witness for C9 at length `-2` with the `Int32` element codec. -/
theorem claim_C9_witness :
    ∃ lp, Int32T.encode (-2) = .ok lp ∧
      arrayDecode int32Codec (lp ++ [5]) = .ok (some [], [5]) :=
  claim_C9_negative_array_length int32Codec (-2) (by norm_num) (by norm_num) [5]

/-- C10 counterexample: the claim states that `write_unsigned_varint`
terminates and returns a finite byte sequence for every non-negative
integer, and that for every negative input the loop condition
`(value & 0xffffff80) != 0` never becomes false.  Both universal parts
fail: at `value = 2 ^ 32` (bits 7..31 all clear) the loop exits
immediately and the final `struct.pack(">B")` raises `struct.error`; and
at `value = -(2 ^ 32)` the loop condition is false at entry, so the loop
terminates at once (again failing in `struct.pack`). -/
theorem claim_C10_counterexample :
    VarInt.write_unsigned_varint_int 5 (4294967296 : Int)
      = some (.error .structError) ∧
    VarInt.write_unsigned_varint_int 5 (-4294967296 : Int)
      = some (.error .structError) :=
  ⟨rfl, rfl⟩

/-- C10 (amended): the write loop of `write_unsigned_varint` terminates
with a byte sequence for every `0 ≤ value < 2 ^ 32` (five iterations of
fuel always suffice, each iteration right-shifting the value by 7 bits),
and it runs forever exactly as the claim describes for every negative
32-bit value `-2 ^ 31 ≤ value ≤ -1` (for such values a bit among
positions 7..31 is always set). -/
theorem claim_C10_amended :
    (∀ v : Int, 0 ≤ v → v < 2 ^ 32 →
      ∃ bs, VarInt.write_unsigned_varint_int 5 v = some (.ok bs)) ∧
    (∀ v : Int, -2 ^ 31 ≤ v → v ≤ -1 →
      ∀ fuel, VarInt.write_unsigned_varint_int fuel v = none) := by
  constructor
  · intro v h0 h32
    obtain ⟨n, rfl⟩ := Int.eq_ofNat_of_zero_le h0
    have hn : n < 2 ^ 32 := by exact_mod_cast h32
    have h5 : n < 2 ^ (7 * (4 + 1)) := by norm_num at hn ⊢; omega
    obtain ⟨bs, hbs⟩ := writeLoopInt_ok 4 n [] h5 hn
    refine ⟨bs, ?_⟩
    rw [VarInt.write_unsigned_varint_int, ← Int.ofNat_eq_natCast]
    exact hbs
  · intro v h1 h2 fuel
    rw [VarInt.write_unsigned_varint_int]
    exact writeLoopInt_neg_diverges fuel v [] h1 h2

/-- Witness for C10 (amended) at `value = 300` and `value = -1`. -/
theorem claim_C10_witness :
    (∃ bs, VarInt.write_unsigned_varint_int 5 300 = some (.ok bs)) ∧
    VarInt.write_unsigned_varint_int 3 (-1) = none :=
  ⟨claim_C10_amended.1 300 (by norm_num) (by norm_num),
   claim_C10_amended.2 (-1) (by norm_num) (by norm_num) 3⟩

end KafkaTypes
